import Mathlib

/-!
Verification of the parallel alignment-extraction pipeline of
`awesome_align/run_align.py`.

The embedding is byte-level: a file is a `List Nat` of byte values, a
text-mode position is a byte offset (the CPython behaviour for utf-8
files), `readline` reads up to and including the next `10` (newline)
byte, and the `UnicodeDecodeError` retry of `find_offsets` backs up over
utf-8 continuation bytes.  Lines handed to `process_line` are byte
lists; the string operations used by the source (`split(' ||| ')`,
`isspace`, `rstrip`, `strip`, `split()`) act on ASCII separators and
whitespace only, so they are modelled byte-for-byte.

External collaborators (the subword tokenizer and the encoder/aligner)
are parameters, as in the spec's interface section.
-/

set_option autoImplicit false

namespace RunAlign

/-- Whitespace test for one (ASCII) byte, the class shared by Python's
`str.isspace`, `str.strip` and `str.split()`. -/
def isSpaceByte (b : Nat) : Bool :=
  b = 32 || b = 9 || b = 10 || b = 11 || b = 12 || b = 13

/-- `str.isspace()`: nonempty and all whitespace. -/
def pyIsspace (l : List Nat) : Bool := !l.isEmpty && l.all isSpaceByte

/-- `str.rstrip()`. -/
def pyRstrip (l : List Nat) : List Nat := (l.reverse.dropWhile isSpaceByte).reverse

/-- `str.strip()`. -/
def pyStrip (l : List Nat) : List Nat := pyRstrip (l.dropWhile isSpaceByte)

/-- Helper for `str.split()`: split on whitespace runs, dropping empty
fields; `acc` holds the current word reversed. -/
def pyWordsAux : List Nat → List Nat → List (List Nat)
  | acc, [] => if acc.isEmpty then [] else [acc.reverse]
  | acc, b :: rest =>
    if isSpaceByte b then
      if acc.isEmpty then pyWordsAux [] rest else acc.reverse :: pyWordsAux [] rest
    else pyWordsAux (b :: acc) rest

/-- `str.split()` with no argument. -/
def pyWords (l : List Nat) : List (List Nat) := pyWordsAux [] l

/-- The bytes of the fixed field separator `' ||| '`. -/
def sepBytes : List Nat := [32, 124, 124, 124, 32]

/-- Helper for `str.split(' ||| ')`: leftmost non-overlapping
occurrences of the five-byte separator split the line.  `fuel` only
bounds the recursion; at least one byte is consumed per step, so
`l.length + 1` fuel always suffices. -/
def pySplitGo : Nat → List Nat → List Nat → List (List Nat)
  | 0, acc, l => [acc.reverse ++ l]
  | fuel + 1, acc, l =>
    match l with
    | [] => [acc.reverse]
    | b :: rest =>
      if sepBytes.isPrefixOf (b :: rest) then
        acc.reverse :: pySplitGo fuel [] (rest.drop 4)
      else
        pySplitGo fuel (b :: acc) rest

/-- `line.split(' ||| ')`. -/
def pySplit (l : List Nat) : List (List Nat) := pySplitGo (l.length + 1) [] l

/-- Byte length of the first line of `l`, up to and including its
newline, or all of `l` when no newline remains: what `readline`
consumes. -/
def lineLen : List Nat → Nat
  | [] => 0
  | b :: rest => if b = 10 then 1 else lineLen rest + 1

/-- File position (`f.tell()`) after `readline` from position `p`. -/
def lineEnd (file : List Nat) (p : Nat) : Nat := p + lineLen (file.drop p)

/-- The raw line returned by `readline` from position `p`. -/
def readLine (file : List Nat) (p : Nat) : List Nat :=
  (file.drop p).take (lineLen (file.drop p))

/-- A utf-8 continuation byte: seeking to it and reading raises
`UnicodeDecodeError`. -/
def isCont (b : Nat) : Bool := 128 ≤ b && b < 192

/-- The `except UnicodeDecodeError: pos -= 1; f.seek(pos)` retry loop of
`find_offsets`: back up until the position is decodable. -/
def snapBack (file : List Nat) : Nat → Nat
  | 0 => 0
  | p + 1 => if isCont (file.getD (p + 1) 0) then snapBack file p else p + 1

/-- Offset `i` of the shard plan: `0` for `i = 0`, otherwise `f.tell()`
after seeking to `chunk_size * i` and reading to the end of the current
line (with the decode retry). -/
def offsetAt (file : List Nat) (numWorkers i : Nat) : Nat :=
  if i = 0 then 0 else lineEnd file (snapBack file (file.length / numWorkers * i))

/-- `find_offsets(filename, num_workers)`: `None` for at most one
worker, otherwise the list `[0, o_1, ..., o_{W-1}]`. -/
def find_offsets (file : List Nat) (numWorkers : Nat) : Option (List Nat) :=
  if numWorkers ≤ 1 then none
  else some ((List.range numWorkers).map (offsetAt file numWorkers))

/-- The shard of worker `i` ends at the next offset, or at end of file
for the last worker. -/
def shardEnd (file : List Nat) (offs : List Nat) (i : Nat) : Nat :=
  if i + 1 < offs.length then offs.getD (i + 1) 0 else file.length

/-- Position `p` is the start of a line: the start of the file or the
position right after a newline byte. -/
def atLineStart (file : List Nat) (p : Nat) : Prop :=
  p = 0 ∨ (0 < p ∧ file.getD (p - 1) 0 = 10)

/-- The tokenizer collaborator: word-to-subword tokenization,
token-to-id conversion, maximum model length and special token ids. -/
structure Tokenizer (τ : Type) where
  tokenize : List Nat → List τ
  tokenToId : τ → Nat
  maxLen : Nat
  clsId : Nat
  sepId : Nat
  padId : Nat

/-- Modelled from the spec: `tokenizer.prepare_for_model` (from
`awesome_align/tokenization_utils.py`, which is not under `src/`)
frames the id sequence with the begin/end markers and truncates it to
the maximum sequence length. -/
def prepare_for_model {τ : Type} (tok : Tokenizer τ) (ids : List Nat) : List Nat :=
  tok.clsId :: (ids.take (tok.maxLen - 2) ++ [tok.sepId])

/-- One item yielded by `LineByLineTextDataset.__iter__`. -/
structure Item where
  workerId : Nat
  idsSrc : List Nat
  idsTgt : List Nat
  bpeSrc : List Int
  bpeTgt : List Int
  sentSrc : List (List Nat)
  sentTgt : List (List Nat)
  deriving DecidableEq

/-- `bpe2word_map += [i for x in word_list]` over
`enumerate(token_src)`, starting the enumeration at `k`. -/
def bpeMapAux {τ : Type} : Nat → List (List τ) → List Int
  | _, [] => []
  | k, ts :: rest => ts.map (fun _ => (k : Int)) ++ bpeMapAux (k + 1) rest

/-- The word2subword index map of one side. -/
def bpeMap {τ : Type} (tokens : List (List τ)) : List Int := bpeMapAux 0 tokens

/-- First field of the line (`src`). -/
def srcField (line : List Nat) : List Nat := (pySplit line).getD 0 []

/-- Second field of the line (`tgt`). -/
def tgtField (line : List Nat) : List Nat := (pySplit line).getD 1 []

/-- `field.strip().split()`: the word sequence of one side. -/
def sentOf (f : List Nat) : List (List Nat) := pyWords (pyStrip f)

/-- Per-word token lists of one side. -/
def tokensOf {τ : Type} (tok : Tokenizer τ) (f : List Nat) : List (List τ) :=
  (sentOf f).map tok.tokenize

/-- `list(itertools.chain(*wid))`: the concatenated subword-id sequence
of one side, before framing and truncation. -/
def subwordIds {τ : Type} (tok : Tokenizer τ) (f : List Nat) : List Nat :=
  ((tokensOf tok f).map (fun ts => ts.map tok.tokenToId)).flatten

/-- `LineByLineTextDataset.process_line`: the three rejection tests of
the source (empty/whitespace/field-count, empty field after trimming,
sequence truncated to the two framing markers), then the assembled
item. -/
def process_line {τ : Type} (tok : Tokenizer τ) (workerId : Nat) (line : List Nat) :
    Option Item :=
  if line.length = 0 ∨ pyIsspace line = true ∨ (pySplit line).length ≠ 2 then none
  else if pyRstrip (srcField line) = [] ∨ pyRstrip (tgtField line) = [] then none
  else if (prepare_for_model tok (subwordIds tok (srcField line))).length = 2 ∨
      (prepare_for_model tok (subwordIds tok (tgtField line))).length = 2 then none
  else
    some ⟨workerId,
      prepare_for_model tok (subwordIds tok (srcField line)),
      prepare_for_model tok (subwordIds tok (tgtField line)),
      bpeMap (tokensOf tok (srcField line)), bpeMap (tokensOf tok (tgtField line)),
      sentOf (srcField line), sentOf (tgtField line)⟩

/-- The sentinel item yielded for a malformed line: the reserved short
subword sequence and the `[-1]` maps. -/
def sentinelItem {τ : Type} (tok : Tokenizer τ) (workerId : Nat) : Item :=
  ⟨workerId, [tok.clsId, 999, tok.sepId], [tok.clsId, 999, tok.sepId],
    [-1], [-1], [], []⟩

/-- The item `__iter__` yields for one raw line: the processed line, or
the sentinel when `process_line` rejects it (the line is logged and
iteration continues). -/
def lineItem {τ : Type} (tok : Tokenizer τ) (workerId : Nat) (line : List Nat) : Item :=
  (process_line tok workerId line).getD (sentinelItem tok workerId)

/-- The read loop of `__iter__`: read a line, yield, and stop once
`f.tell()` has reached the end offset — the line that crosses the end
offset is still fully consumed.  `fuel` only bounds the recursion (each
step consumes at least one byte, so `file.length + 1` always
suffices). -/
def workerReadGo (file : List Nat) (stop : Option Nat) : Nat → Nat → List (List Nat)
  | 0, _ => []
  | fuel + 1, p =>
    if p < file.length then
      let l := readLine file p
      let q := lineEnd file p
      match stop with
      | some e => if e ≤ q then [l] else l :: workerReadGo file stop fuel q
      | none => l :: workerReadGo file stop fuel q
    else []

/-- The raw lines a worker consumes from byte `start` up to the
optional end offset. -/
def workerRead (file : List Nat) (start : Nat) (stop : Option Nat) : List (List Nat) :=
  workerReadGo file stop (file.length + 1) start

/-- All lines of the file, as consumed by a single unbounded reader. -/
def linesOf (file : List Nat) : List (List Nat) := workerRead file 0 none

/-- Start offset and optional end offset of one worker, as computed at
the top of `__iter__`. -/
def boundsFor (offsets : Option (List Nat)) (workerId : Nat) : Nat × Option Nat :=
  match offsets with
  | none => (0, none)
  | some offs =>
    (offs.getD workerId 0,
      if workerId + 1 < offs.length then some (offs.getD (workerId + 1) 0) else none)

/-- `LineByLineTextDataset.__iter__` for one worker: one item per
consumed raw line. -/
def iterWorker {τ : Type} (tok : Tokenizer τ) (file : List Nat)
    (offsets : Option (List Nat)) (workerId : Nat) : List Item :=
  (workerRead file (boundsFor offsets workerId).1 (boundsFor offsets workerId).2).map
    (lineItem tok workerId)

/-- An item is the sentinel of a malformed line (identified by its
reserved word2subword maps). -/
def isSentinelItem (it : Item) : Bool := it.bpeSrc == [-1] && it.bpeTgt == [-1]

/-- Modelled from the spec: `modeling.get_aligned_word` (from
`awesome_align/modeling.py`, which is not under `src/`) short-circuits
sentinel inputs to the sentinel alignment set `{(-1,-1): 0}` and
otherwise returns the extractor's word-level alignment set with
confidences. -/
def get_aligned_word (extract : Item → List ((Int × Int) × ℚ)) (it : Item) :
    List ((Int × Int) × ℚ) :=
  if isSentinelItem it then [((-1, -1), 0)] else extract it

/-- One formatted output line per input line: the kept `i-j` pairs, the
matching confidences, and the matching surface word pairs. -/
structure LineRec where
  alignPairs : List (Int × Int)
  probs : List ℚ
  wordPairs : List (List Nat × List Nat)
  deriving DecidableEq

/-- The per-line formatting loop of `word_align` (source lines
186-192): iterate the alignment set, skip pairs whose source index is
`-1`, and append the pair, its confidence, and
`sent_src[i]<sep>sent_tgt[j]` in lockstep.  Word indices produced by
the extractor are non-negative, so Python's negative indexing never
fires and `getD` with `toNat` is faithful. -/
def formatRec (sentSrc sentTgt : List (List Nat)) : List ((Int × Int) × ℚ) → LineRec
  | [] => ⟨[], [], []⟩
  | (pr, p) :: rest =>
    let r := formatRec sentSrc sentTgt rest
    if pr.1 ≠ -1 then
      ⟨pr :: r.alignPairs, p :: r.probs,
        (sentSrc.getD pr.1.toNat [], sentTgt.getD pr.2.toNat []) :: r.wordPairs⟩
    else r

/-- A writer stream: the real output file for worker 0
(`backing = some path`) or an anonymous temporary file, with its
current content (a list of records, one per written line) and whether
it has been closed. -/
structure WStream (α : Type) where
  backing : Option String
  content : List α
  closed : Bool

/-- `open_writer_list(filename, num_workers)`: truncate-open the real
output file (mode `'w+'`), then one fresh temporary stream per
remaining worker.  `fs` is the file system, mapping a path to the
content stored there. -/
def open_writer_list {α : Type} (fs : String → List α) (filename : String)
    (numWorkers : Nat) : (String → List α) × List (WStream α) :=
  (fun p => if p = filename then [] else fs p,
    ⟨some filename, [], false⟩ ::
      (if numWorkers > 1 then
        (List.range (numWorkers - 1)).map (fun _ => (⟨none, [], false⟩ : WStream α))
      else []))

/-- `merge_files(writers)`: a single stream is only closed; otherwise
the contents of streams `1..N-1` are copied, in order, onto stream 0
(`shutil.copyfileobj`) and every stream is closed.  `merge_files([])`
raises `IndexError`, modelled as `none`. -/
def merge_files {α : Type} : List (WStream α) → Option (List (WStream α))
  | [] => none
  | [w] => some [{ w with closed := true }]
  | w :: rest =>
    let w0 := rest.foldl (fun acc r => { acc with content := acc.content ++ r.content }) w
    some ({ w0 with closed := true } :: rest.map (fun s => { s with closed := true }))

/-- Each worker's records are appended to its own stream (record `k` of
worker `w` is written by `writers[worker_id].write` in per-worker
order). -/
def writeAll {α : Type} (ws : List (WStream α)) (recss : List (List α)) :
    List (WStream α) :=
  ws.enum.map (fun p => { p.2 with content := p.2.content ++ recss.getD p.1 [] })

/-- Content of the real output file after `merge_files`: stream 0 after
the merge. -/
def mergedContent {α : Type} (ws : List (WStream α)) : List α :=
  match merge_files ws with
  | some (s :: _) => s.content
  | _ => []

/-- The writer streams of one output kind, as opened by
`open_writer_list` on a fresh file system. -/
def mkWritersOut {α : Type} (path : String) (numWorkers : Nat) : List (WStream α) :=
  (open_writer_list (fun _ => ([] : List α)) path numWorkers).2

/-- Errors `word_align` can raise during setup: the explicit
`ValueError('set data_file or output_onnx')`, and the `TypeError` from
`open(None, 'w+')` when no output file is configured. -/
inductive Err
  | valueError
  | typeError
  deriving DecidableEq

/-- The configuration surface `word_align` consumes.  `data_file`
carries the input file's bytes directly (`none` when not
configured). -/
structure Args where
  data_file : Option (List Nat)
  output_file : Option String
  output_prob_file : Option String
  output_word_file : Option String
  output_onnx : Option String
  num_workers : Nat

/-- Result of a `word_align` run: the error it aborted with (if any),
how many writer streams were opened, whether the data-loading workers
were started, whether the pipeline was skipped, and the final contents
of the enabled output files. -/
structure AlignResult where
  error : Option Err
  opened : Nat
  started : Bool
  skipped : Bool
  fileAlign : List (List (Int × Int))
  fileProb : Option (List (List ℚ))
  fileWord : Option (List (List (List Nat × List Nat)))

/-- `word_align(args, model, tokenizer)`.  Batching only amortizes the
encoder call: records are routed to `writers[worker_id]` and each
worker's records stay in per-worker order, so the stream contents are
the per-worker record lists.  The extractor (`model.get_aligned_word`
without its sentinel short-circuit) is the `extract` parameter. -/
def word_align {τ : Type} (tok : Tokenizer τ) (extract : Item → List ((Int × Int) × ℚ))
    (args : Args) : AlignResult :=
  match args.data_file with
  | none =>
    if args.output_onnx.isNone then ⟨some .valueError, 0, false, false, [], none, none⟩
    else ⟨none, 0, false, true, [], none, none⟩
  | some file =>
    let offsets := find_offsets file args.num_workers
    match args.output_file with
    | none => ⟨some .typeError, 0, false, false, [], none, none⟩
    | some path =>
      let W := args.num_workers
      let writers : List (WStream (List (Int × Int))) := mkWritersOut path W
      let probWriters : Option (List (WStream (List ℚ))) :=
        args.output_prob_file.map (fun p => mkWritersOut p W)
      let wordWriters : Option (List (WStream (List (List Nat × List Nat)))) :=
        args.output_word_file.map (fun p => mkWritersOut p W)
      let opened := writers.length +
        (match probWriters with | some l => l.length | none => 0) +
        (match wordWriters with | some l => l.length | none => 0)
      let nw := if W ≤ 1 then 1 else W
      let recss := (List.range nw).map (fun w =>
        (iterWorker tok file offsets w).map (fun it =>
          formatRec it.sentSrc it.sentTgt (get_aligned_word extract it)))
      let alignOut := mergedContent (writeAll writers (recss.map (fun rs => rs.map (·.alignPairs))))
      let probOut := probWriters.map (fun pws =>
        mergedContent (writeAll pws (recss.map (fun rs => rs.map (·.probs)))))
      let wordOut := wordWriters.map (fun wws =>
        mergedContent (writeAll wws (recss.map (fun rs => rs.map (·.wordPairs)))))
      ⟨none, opened, true, false, alignOut, probOut, wordOut⟩

/-! ### Concrete instances used by counterexamples and witnesses -/

/-- A concrete tokenizer: every byte of a word is one subword token. -/
def tok0 : Tokenizer Nat :=
  ⟨fun w => w, fun t => t, 100, 101, 102, 0⟩

/-- A concrete extractor producing no alignments. -/
def extract0 : Item → List ((Int × Int) × ℚ) := fun _ => []

/-- The bytes of `"ab ||| cd\nxy ||| z\n"`: two well-formed bitext
lines, 19 bytes, the first line longer than two sharding chunks at four
workers. -/
def file2 : List Nat :=
  [97, 98, 32, 124, 124, 124, 32, 99, 100, 10,
   120, 121, 32, 124, 124, 124, 32, 122, 10]

/-- The bytes of the first line of `file2`. -/
def line0 : List Nat := [97, 98, 32, 124, 124, 124, 32, 99, 100, 10]

/-- The item `process_line tok0 0 line0` produces. -/
def item0 : Item :=
  ⟨0, [101, 97, 98, 102], [101, 99, 100, 102], [0, 0], [0, 0],
    [[97, 98]], [[99, 100]]⟩

/-- Arguments running `file2` with all three outputs enabled. -/
def argsW (w : Nat) : Args :=
  ⟨some file2, some "out", some "probout", some "wordout", none, w⟩

/-- The bytes of `"ab"`: a two-byte file without a newline. -/
def c2file : List Nat := [97, 98]

/-- The bytes of `"aa\nbb\ncc\n"`. -/
def c2goodFile : List Nat := [97, 97, 10, 98, 98, 10, 99, 99, 10]

/-! ### Lemmas about lines and the shard planner -/

theorem lineLen_le_length (l : List Nat) : lineLen l ≤ l.length := by
  induction l with
  | nil => exact Nat.le_refl _
  | cons b rest ih =>
    simp only [lineLen, List.length_cons]
    split <;> omega

theorem lineEnd_mono_succ (file : List Nat) (p : Nat) :
    lineEnd file p ≤ lineEnd file (p + 1) := by
  rcases h : file.drop p with _ | ⟨b, rest⟩
  · have h1 : file.length ≤ p := by rw [← List.drop_eq_nil_iff]; exact h
    have h2 : file.drop (p + 1) = [] := by rw [List.drop_eq_nil_iff]; omega
    simp [lineEnd, h, h2, lineLen]
  · have h2 : file.drop (p + 1) = rest := by
      rw [← List.tail_drop, h]
      rfl
    simp only [lineEnd, h, h2, lineLen]
    split <;> omega

theorem lineEnd_mono (file : List Nat) {p q : Nat} (h : p ≤ q) :
    lineEnd file p ≤ lineEnd file q := by
  induction q, h using Nat.le_induction with
  | base => exact Nat.le_refl _
  | succ n _ ih => exact le_trans ih (lineEnd_mono_succ file n)

theorem lineEnd_le_length (file : List Nat) {p : Nat} (h : p ≤ file.length) :
    lineEnd file p ≤ file.length := by
  have h1 := lineLen_le_length (file.drop p)
  have h2 : (file.drop p).length = file.length - p := List.length_drop p file
  unfold lineEnd
  omega

theorem lineLen_boundary (l : List Nat) :
    lineLen l = l.length ∨ (0 < lineLen l ∧ l.getD (lineLen l - 1) 0 = 10) := by
  induction l with
  | nil => left; rfl
  | cons b rest ih =>
    by_cases hb : b = 10
    · right
      refine ⟨by simp [lineLen, hb], ?_⟩
      simp [lineLen, hb, List.getD]
    · rcases ih with h | ⟨hpos, hnl⟩
      · left; simp [lineLen, hb, h]
      · right
        have hc : lineLen (b :: rest) = lineLen rest + 1 := by simp [lineLen, hb]
        refine ⟨by omega, ?_⟩
        obtain ⟨m, hm⟩ : ∃ m, lineLen rest = m + 1 := ⟨lineLen rest - 1, by omega⟩
        rw [hc, hm]
        have : rest.getD m 0 = 10 := by rw [← hnl, hm]; rfl
        simpa [List.getD] using this

theorem lineEnd_boundary (file : List Nat) {p : Nat} (h : p ≤ file.length) :
    lineEnd file p = file.length ∨
      (0 < lineEnd file p ∧ file.getD (lineEnd file p - 1) 0 = 10) := by
  rcases lineLen_boundary (file.drop p) with h1 | ⟨hpos, hnl⟩
  · left
    unfold lineEnd
    rw [h1, List.length_drop]
    omega
  · right
    refine ⟨by unfold lineEnd; omega, ?_⟩
    have e : lineEnd file p - 1 = p + (lineLen (file.drop p) - 1) := by
      unfold lineEnd; omega
    rw [e, List.getD_eq_getElem?_getD, ← List.getElem?_drop,
      ← List.getD_eq_getElem?_getD]
    exact hnl

theorem snapBack_le (file : List Nat) (p : Nat) : snapBack file p ≤ p := by
  induction p with
  | zero => exact Nat.le_refl _
  | succ n ih =>
    simp only [snapBack]
    split
    · omega
    · exact Nat.le_refl _

theorem snapBack_mono (file : List Nat) {p q : Nat} (h : p ≤ q) :
    snapBack file p ≤ snapBack file q := by
  induction q, h using Nat.le_induction with
  | base => exact Nat.le_refl _
  | succ n _ ih =>
    refine le_trans ih ?_
    simp only [snapBack]
    split
    · exact Nat.le_refl _
    · exact le_trans (snapBack_le file n) (Nat.le_succ n)

theorem offsetAt_zero (file : List Nat) (W : Nat) : offsetAt file W 0 = 0 := by
  simp [offsetAt]

theorem offsetAt_mono (file : List Nat) (W : Nat) {i j : Nat} (h : i ≤ j) :
    offsetAt file W i ≤ offsetAt file W j := by
  by_cases hi : i = 0
  · subst hi
    rw [offsetAt_zero]
    exact Nat.zero_le _
  · have hj : j ≠ 0 := by omega
    unfold offsetAt
    rw [if_neg hi, if_neg hj]
    exact lineEnd_mono file (snapBack_mono file (Nat.mul_le_mul (Nat.le_refl _) h))

theorem offsetAt_le_length (file : List Nat) {W i : Nat} (hi : i ≤ W) :
    offsetAt file W i ≤ file.length := by
  unfold offsetAt
  split
  · exact Nat.zero_le _
  · refine lineEnd_le_length file ?_
    calc snapBack file (file.length / W * i)
        ≤ file.length / W * i := snapBack_le _ _
      _ ≤ file.length / W * W := Nat.mul_le_mul (Nat.le_refl _) hi
      _ ≤ file.length := Nat.div_mul_le_self _ _

theorem offsetAt_boundary (file : List Nat) {W i : Nat} (h1 : 1 ≤ i) (h2 : i ≤ W) :
    atLineStart file (offsetAt file W i) ∨ offsetAt file W i = file.length := by
  have harg : snapBack file (file.length / W * i) ≤ file.length :=
    le_trans (snapBack_le _ _)
      (le_trans (Nat.mul_le_mul (Nat.le_refl _) h2) (Nat.div_mul_le_self _ _))
  have hne : i ≠ 0 := by omega
  rcases lineEnd_boundary file harg with hEof | ⟨hpos, hnl⟩
  · right; unfold offsetAt; rw [if_neg hne]; exact hEof
  · left
    unfold offsetAt atLineStart
    rw [if_neg hne]
    exact Or.inr ⟨hpos, hnl⟩

/-- A step function starting at or below `b` and ending above `b` has a
step index whose interval contains `b`. -/
theorem mono_step_cover (g : Nat → Nat) (b : Nat) :
    ∀ W, 1 ≤ W → g 0 ≤ b → b < g W → ∃ m, m < W ∧ g m ≤ b ∧ b < g (m + 1)
  | 0, hW, _, _ => absurd hW (by omega)
  | W + 1, _, h0, hb => by
    by_cases hc : g W ≤ b
    · exact ⟨W, by omega, hc, hb⟩
    · have hW1 : 1 ≤ W := by
        by_contra hn
        have hz : W = 0 := by omega
        rw [hz] at hc
        omega
      obtain ⟨m, h1, h2, h3⟩ := mono_step_cover g b W hW1 h0 (by omega)
      exact ⟨m, by omega, h2, h3⟩

theorem find_offsets_eq {file : List Nat} {W : Nat} {offs : List Nat}
    (h : find_offsets file W = some offs) :
    2 ≤ W ∧ offs = (List.range W).map (offsetAt file W) := by
  unfold find_offsets at h
  split at h
  · exact absurd h (by simp)
  · next hc => exact ⟨by omega, (Option.some.inj h).symm⟩

theorem getD_map_range {f : Nat → Nat} {n i : Nat} (h : i < n) :
    ((List.range n).map f).getD i 0 = f i := by
  simp [List.getD_eq_getElem?_getD, List.getElem?_map, List.getElem?_range, h]

/-- Claim C2 (amended): the shard plan starts at offset `0`, its offsets
are non-decreasing (not necessarily strictly increasing) and bounded by
the file size, every interior offset lies at the start of a line or at
end of file, and every byte of `[0, fileSize)` belongs to exactly one
shard range, so no byte is duplicated or omitted (empty shards are
possible). -/
theorem claim2_shard_plan (file : List Nat) (W : Nat) (offs : List Nat)
    (h : find_offsets file W = some offs) :
    offs.length = W ∧
    offs.getD 0 0 = 0 ∧
    (∀ i j, i ≤ j → j < W → offs.getD i 0 ≤ offs.getD j 0) ∧
    (∀ i, i < W → offs.getD i 0 ≤ file.length) ∧
    (∀ i, 1 ≤ i → i < W → atLineStart file (offs.getD i 0) ∨ offs.getD i 0 = file.length) ∧
    (∀ b, b < file.length →
      ∃! i, i < W ∧ offs.getD i 0 ≤ b ∧ b < shardEnd file offs i) := by
  obtain ⟨hW, rfl⟩ := find_offsets_eq h
  have hlen : ((List.range W).map (offsetAt file W)).length = W := by simp
  have hget : ∀ i, i < W →
      ((List.range W).map (offsetAt file W)).getD i 0 = offsetAt file W i :=
    fun i hi => getD_map_range hi
  -- the boundary function extended past the last worker by the file size
  set g : Nat → Nat := fun k => if k < W then offsetAt file W k else file.length with hg
  have gmono : ∀ {i j : Nat}, i ≤ j → g i ≤ g j := by
    intro i j hij
    by_cases hjW : j < W
    · have hiW : i < W := by omega
      simp only [hg, if_pos hjW, if_pos hiW]
      exact offsetAt_mono file W hij
    · by_cases hiW : i < W
      · simp only [hg, if_pos hiW, if_neg hjW]
        exact offsetAt_le_length file (by omega)
      · simp only [hg, if_neg hjW, if_neg hiW]
        exact Nat.le_refl _
  have gzero : g 0 = 0 := by
    simp only [hg, if_pos (by omega : (0:Nat) < W)]
    exact offsetAt_zero file W
  have hshard : ∀ i, i < W →
      shardEnd file ((List.range W).map (offsetAt file W)) i = g (i + 1) := by
    intro i hi
    unfold shardEnd
    rw [hlen]
    by_cases hc : i + 1 < W
    · rw [if_pos hc, hget (i + 1) hc]
      simp only [hg, if_pos hc]
    · rw [if_neg hc]
      simp only [hg, if_neg hc]
  refine ⟨hlen, ?_, ?_, ?_, ?_, ?_⟩
  · rw [hget 0 (by omega)]; exact offsetAt_zero file W
  · intro i j hij hj
    rw [hget i (by omega), hget j hj]
    exact offsetAt_mono file W hij
  · intro i hi
    rw [hget i hi]
    exact offsetAt_le_length file (by omega)
  · intro i h1 hi
    rw [hget i hi]
    exact offsetAt_boundary file h1 (by omega)
  · intro b hb
    have hP0 : g 0 ≤ b := by rw [gzero]; exact Nat.zero_le b
    have hcontains : ∀ i, i < W → g i ≤ b → b < g (i + 1) →
        (i < W ∧ ((List.range W).map (offsetAt file W)).getD i 0 ≤ b ∧
          b < shardEnd file ((List.range W).map (offsetAt file W)) i) := by
      intro i hi hle hlt
      refine ⟨hi, ?_, ?_⟩
      · rw [hget i hi]
        have := hle
        simpa only [hg, if_pos hi] using this
      · rw [hshard i hi]; exact hlt
    have hsees : ∀ i, (i < W ∧ ((List.range W).map (offsetAt file W)).getD i 0 ≤ b ∧
        b < shardEnd file ((List.range W).map (offsetAt file W)) i) →
        g i ≤ b ∧ b < g (i + 1) := by
      intro i ⟨hi, hle, hlt⟩
      constructor
      · rw [hget i hi] at hle
        simpa only [hg, if_pos hi] using hle
      · rw [hshard i hi] at hlt; exact hlt
    have hgW : g W = file.length := by
      simp only [hg, if_neg (lt_irrefl W)]
    obtain ⟨m, hmW, hmle, hmlt⟩ :=
      mono_step_cover g b W (by omega) hP0 (by rw [hgW]; exact hb)
    refine ⟨m, hcontains m hmW hmle hmlt, ?_⟩
    intro y hy
    obtain ⟨hyle, hylt⟩ := hsees y hy
    by_contra hne
    rcases Nat.lt_or_ge y m with hlt | hge
    · have : g (y + 1) ≤ g m := gmono (by omega)
      omega
    · have : g (m + 1) ≤ g y := gmono (by omega)
      omega

/-- Counterexample to claim C2 as stated: on the two-byte file `"ab"`
with three workers, the shard plan is `[0, 2, 2]` — not strictly
increasing, and the interior offset `2` is not at the start of a line
(the file contains no newline). -/
theorem claim2_counterexample :
    find_offsets c2file 3 = some [0, 2, 2] ∧
    ¬ List.Pairwise (· < ·) [0, 2, 2] ∧
    ¬ atLineStart c2file 2 := by
  refine ⟨by decide, by decide, ?_⟩
  unfold atLineStart
  decide

/-- Witness: the amended claim C2 applied to the nine-byte file
`"aa\nbb\ncc\n"` with three workers, whose plan is `[0, 6, 9]`. -/
theorem claim2_witness :
    find_offsets c2goodFile 3 = some [0, 6, 9] ∧
    ([0, 6, 9] : List Nat).length = 3 ∧
    ([0, 6, 9] : List Nat).getD 0 0 = 0 ∧
    (∀ i j, i ≤ j → j < 3 → ([0, 6, 9] : List Nat).getD i 0 ≤ ([0, 6, 9] : List Nat).getD j 0) ∧
    (∀ i, i < 3 → ([0, 6, 9] : List Nat).getD i 0 ≤ c2goodFile.length) ∧
    (∀ i, 1 ≤ i → i < 3 →
      atLineStart c2goodFile (([0, 6, 9] : List Nat).getD i 0) ∨
        ([0, 6, 9] : List Nat).getD i 0 = c2goodFile.length) ∧
    (∀ b, b < c2goodFile.length →
      ∃! i, i < 3 ∧ ([0, 6, 9] : List Nat).getD i 0 ≤ b ∧
        b < shardEnd c2goodFile [0, 6, 9] i) := by
  have h : find_offsets c2goodFile 3 = some [0, 6, 9] := by decide
  obtain ⟨h1, h2, h3, h4, h5, h6⟩ := claim2_shard_plan c2goodFile 3 [0, 6, 9] h
  exact ⟨h, h1, h2, h3, h4, h5, h6⟩

/-! ### The empty-shard duplication bug (claims C1 and C3) -/

/-- Claim C1 (failing input): on `"ab ||| cd\nxy ||| z\n"` with four
workers the shard plan is `[0, 10, 10, 19]`.  Worker 1 owns the empty
range `[10, 10)` but the read loop yields the line found at byte 10
before testing the end offset, and worker 2 yields the same line again,
so the merged four-worker alignment file has three lines while the
single-worker file has two: the outputs are not identical. -/
theorem claim1_multiworker_output_differs :
    find_offsets file2 4 = some [0, 10, 10, 19] ∧
    workerRead file2 10 (some 10) = [[120, 121, 32, 124, 124, 124, 32, 122, 10]] ∧
    workerRead file2 10 (some 19) = [[120, 121, 32, 124, 124, 124, 32, 122, 10]] ∧
    (word_align tok0 extract0 (argsW 4)).fileAlign = [[], [], []] ∧
    (word_align tok0 extract0 (argsW 1)).fileAlign = [[], []] ∧
    (word_align tok0 extract0 (argsW 4)).fileAlign ≠
      (word_align tok0 extract0 (argsW 1)).fileAlign := by
  decide

/-- Claim C3 (failing input): the same duplication makes every enabled
output file of the four-worker run three lines long although the input
file `"ab ||| cd\nxy ||| z\n"` has two lines. -/
theorem claim3_linecount_bug :
    (linesOf file2).length = 2 ∧
    (word_align tok0 extract0 (argsW 4)).fileAlign.length = 3 ∧
    (word_align tok0 extract0 (argsW 4)).fileProb = some [[], [], []] ∧
    (word_align tok0 extract0 (argsW 4)).fileWord = some [[], [], []] ∧
    (word_align tok0 extract0 (argsW 1)).fileAlign.length = 2 := by
  decide

/-! ### Per-line output formatting (claims C6 and C7) -/

theorem formatRec_lengths (sentS sentT : List (List Nat))
    (was : List ((Int × Int) × ℚ)) :
    (formatRec sentS sentT was).probs.length =
      (formatRec sentS sentT was).alignPairs.length ∧
    (formatRec sentS sentT was).wordPairs.length =
      (formatRec sentS sentT was).alignPairs.length := by
  induction was with
  | nil => exact ⟨rfl, rfl⟩
  | cons hd rest ih =>
    obtain ⟨pr, p⟩ := hd
    simp only [formatRec]
    split
    · simp [ih.1, ih.2]
    · exact ih

theorem formatRec_no_sentinel (sentS sentT : List (List Nat))
    (was : List ((Int × Int) × ℚ)) :
    ∀ pr ∈ (formatRec sentS sentT was).alignPairs, pr.1 ≠ -1 := by
  induction was with
  | nil => intro pr h; cases h
  | cons hd rest ih =>
    obtain ⟨q, p⟩ := hd
    simp only [formatRec]
    split
    · next hq =>
      intro pr hpr
      rcases List.mem_cons.mp hpr with h | h
      · rw [h]; exact hq
      · exact ih pr h
    · exact ih

theorem formatRec_mem (sentS sentT : List (List Nat))
    (was : List ((Int × Int) × ℚ)) (k : Nat)
    (hk : k < (formatRec sentS sentT was).alignPairs.length) :
    ((formatRec sentS sentT was).alignPairs.getD k (0, 0),
      (formatRec sentS sentT was).probs.getD k 0) ∈ was := by
  induction was generalizing k with
  | nil => simp [formatRec] at hk
  | cons hd rest ih =>
    obtain ⟨q, p⟩ := hd
    by_cases hq : q.1 = -1
    · have hc : ¬ (q.1 ≠ -1) := not_not_intro hq
      simp only [formatRec, if_neg hc] at hk ⊢
      exact List.mem_cons_of_mem _ (ih k hk)
    · simp only [formatRec, if_pos hq] at hk ⊢
      cases k with
      | zero => simp [List.getD]
      | succ j =>
        simp only [List.length_cons] at hk
        have hj : j < (formatRec sentS sentT rest).alignPairs.length := by omega
        simpa [List.getD] using List.mem_cons_of_mem (q, p) (ih j hj)

theorem lookup_of_mem_nodup {a : Int × Int} {b : ℚ} {l : List ((Int × Int) × ℚ)}
    (hnd : (l.map Prod.fst).Nodup) (hm : (a, b) ∈ l) : l.lookup a = some b := by
  induction l with
  | nil => cases hm
  | cons hd rest ih =>
    obtain ⟨x, y⟩ := hd
    rw [List.map_cons, List.nodup_cons] at hnd
    rcases List.mem_cons.mp hm with h | h
    · injection h with h1 h2
      subst h1
      subst h2
      simp [List.lookup]
    · have hmem : a ∈ rest.map Prod.fst := by
        simpa using List.mem_map_of_mem Prod.fst h
      have hax : a ≠ x := fun he => hnd.1 (he ▸ hmem)
      have hbeq : (a == x) = false := beq_eq_false_iff_ne.mpr hax
      rw [List.lookup, hbeq]
      exact ih hnd.2 h

/-- Claim C6: the sentinel alignment `(-1,-1)` is suppressed from every
output stream — a sentinel line formats to an empty alignment line with
empty probability and word-pair lines, no `-1` pair is ever emitted,
and every line still contributes exactly one record per stream (the
three per-line records stay in lockstep). -/
theorem claim6_sentinel_suppressed (sentS sentT : List (List Nat))
    (was : List ((Int × Int) × ℚ)) (q : ℚ) :
    formatRec sentS sentT [((-1, -1), q)] = ⟨[], [], []⟩ ∧
    (∀ pr ∈ (formatRec sentS sentT was).alignPairs, pr.1 ≠ -1) ∧
    (formatRec sentS sentT was).probs.length =
      (formatRec sentS sentT was).alignPairs.length ∧
    (formatRec sentS sentT was).wordPairs.length =
      (formatRec sentS sentT was).alignPairs.length := by
  refine ⟨?_, formatRec_no_sentinel sentS sentT was,
    (formatRec_lengths sentS sentT was).1, (formatRec_lengths sentS sentT was).2⟩
  simp [formatRec]

/-- Claim C7: with the probability output enabled, the `k`-th score on
a probability line is exactly the confidence the alignment set assigns
to the `k`-th pair on the matching alignment line, and the two lines
have equally many tokens. -/
theorem claim7_prob_positional (sentS sentT : List (List Nat))
    (was : List ((Int × Int) × ℚ)) (k : Nat)
    (hnd : (was.map Prod.fst).Nodup)
    (hk : k < (formatRec sentS sentT was).alignPairs.length) :
    (formatRec sentS sentT was).probs.length =
      (formatRec sentS sentT was).alignPairs.length ∧
    was.lookup ((formatRec sentS sentT was).alignPairs.getD k (0, 0)) =
      some ((formatRec sentS sentT was).probs.getD k 0) :=
  ⟨(formatRec_lengths sentS sentT was).1,
    lookup_of_mem_nodup hnd (formatRec_mem sentS sentT was k hk)⟩

/-- Witness for claim C7 at a concrete alignment set containing a
suppressed sentinel pair. -/
theorem claim7_witness :
    (([((0, 1), (1 : ℚ)), ((-1, -1), 0), ((2, 0), 2)] :
        List ((Int × Int) × ℚ)).map Prod.fst).Nodup ∧
    1 < (formatRec [[97]] [[98]]
        [((0, 1), (1 : ℚ)), ((-1, -1), 0), ((2, 0), 2)]).alignPairs.length ∧
    ((formatRec [[97]] [[98]]
        [((0, 1), (1 : ℚ)), ((-1, -1), 0), ((2, 0), 2)]).probs.length =
      (formatRec [[97]] [[98]]
        [((0, 1), (1 : ℚ)), ((-1, -1), 0), ((2, 0), 2)]).alignPairs.length ∧
    ([((0, 1), (1 : ℚ)), ((-1, -1), 0), ((2, 0), 2)] :
        List ((Int × Int) × ℚ)).lookup
        ((formatRec [[97]] [[98]]
          [((0, 1), (1 : ℚ)), ((-1, -1), 0), ((2, 0), 2)]).alignPairs.getD 1 (0, 0)) =
      some ((formatRec [[97]] [[98]]
        [((0, 1), (1 : ℚ)), ((-1, -1), 0), ((2, 0), 2)]).probs.getD 1 0)) :=
  ⟨by decide, by decide,
    claim7_prob_positional [[97]] [[98]]
      [((0, 1), (1 : ℚ)), ((-1, -1), 0), ((2, 0), 2)] 1 (by decide) (by decide)⟩

/-! ### The multi-stream writer (claims C8, C9, C10) -/

theorem merge_foldl_content {α : Type} (rest : List (WStream α)) (w : WStream α) :
    rest.foldl (fun acc r => { acc with content := acc.content ++ r.content }) w =
      ⟨w.backing, w.content ++ (rest.map (fun s => s.content)).flatten, w.closed⟩ := by
  induction rest generalizing w with
  | nil => cases w; simp
  | cons r rs ih =>
    rw [List.foldl_cons, ih]
    cases w
    simp

/-- Claim C8: `merge_files` on a single stream only closes it — the
content is untouched — and on `N > 1` streams it appends the contents
of streams `1..N-1`, in worker-index order, onto stream 0 and closes
every stream. -/
theorem claim8_merge_single_and_concat {α : Type} (w : WStream α)
    (rest : List (WStream α)) :
    merge_files [w] = some [{ w with closed := true }] ∧
    merge_files (w :: rest) =
      some (⟨w.backing, w.content ++ (rest.map (fun s => s.content)).flatten, true⟩ ::
        rest.map (fun s => { s with closed := true })) := by
  refine ⟨rfl, ?_⟩
  cases rest with
  | nil =>
    cases w
    simp [merge_files]
  | cons r rs =>
    simp only [merge_files, merge_foldl_content]

/-- Claim C9: with no output destination and no export path configured
the run stops with an error (the explicit `ValueError` when the data
file is also missing, the `TypeError` of `open(None, 'w+')` otherwise)
before any worker starts and before any output stream is opened; with
the data file unset but an export path configured, the alignment
pipeline is skipped without error. -/
theorem claim9_fatal_setup {τ : Type} (tok : Tokenizer τ)
    (extract : Item → List ((Int × Int) × ℚ)) (a b : Args)
    (h1 : a.output_file = none) (h2 : a.output_onnx = none)
    (h3 : b.data_file = none) (h4 : b.output_onnx.isSome = true) :
    (word_align tok extract a).error.isSome = true ∧
    (word_align tok extract a).opened = 0 ∧
    (word_align tok extract a).started = false ∧
    (word_align tok extract b).error = none ∧
    (word_align tok extract b).opened = 0 ∧
    (word_align tok extract b).started = false ∧
    (word_align tok extract b).skipped = true := by
  have hb : word_align tok extract b = ⟨none, 0, false, true, [], none, none⟩ := by
    unfold word_align
    rw [h3]
    have : b.output_onnx.isNone = false := by
      rcases ho : b.output_onnx with _ | v
      · rw [ho] at h4; simp at h4
      · rfl
    simp [this]
  rcases ha : a.data_file with _ | file
  · have hav : word_align tok extract a =
        ⟨some .valueError, 0, false, false, [], none, none⟩ := by
      unfold word_align
      rw [ha]
      simp [h2]
    rw [hav, hb]
    exact ⟨rfl, rfl, rfl, rfl, rfl, rfl, rfl⟩
  · have hat : word_align tok extract a =
        ⟨some .typeError, 0, false, false, [], none, none⟩ := by
      unfold word_align
      rw [ha, h1]
    rw [hat, hb]
    exact ⟨rfl, rfl, rfl, rfl, rfl, rfl, rfl⟩

/-- Witness for claim C9: a configuration with a data file but no
output file and no export path errors out with nothing opened, and a
configuration with only an export path skips cleanly. -/
theorem claim9_witness :
    (word_align tok0 extract0 ⟨some [], none, none, none, none, 2⟩).error.isSome = true ∧
    (word_align tok0 extract0 ⟨some [], none, none, none, none, 2⟩).opened = 0 ∧
    (word_align tok0 extract0 ⟨some [], none, none, none, none, 2⟩).started = false ∧
    (word_align tok0 extract0 ⟨none, some "o", none, none, some "x", 2⟩).error = none ∧
    (word_align tok0 extract0 ⟨none, some "o", none, none, some "x", 2⟩).opened = 0 ∧
    (word_align tok0 extract0 ⟨none, some "o", none, none, some "x", 2⟩).started = false ∧
    (word_align tok0 extract0 ⟨none, some "o", none, none, some "x", 2⟩).skipped = true :=
  claim9_fatal_setup tok0 extract0
    ⟨some [], none, none, none, none, 2⟩ ⟨none, some "o", none, none, some "x", 2⟩
    rfl rfl rfl rfl

theorem getD_backing_none {α : Type} (m j : Nat) :
    (((List.range m).map (fun _ => (⟨none, [], false⟩ : WStream α))).getD j
      ⟨none, [], false⟩).backing = none := by
  by_cases hj : j < ((List.range m).map (fun _ => (⟨none, [], false⟩ : WStream α))).length
  · rw [List.getD_eq_getElem _ _ hj]
    simp
  · rw [List.getD_eq_default _ _ (by omega)]

/-- Claim C10: `open_writer_list` immediately truncates the real output
file (mode `'w+'` destroys prior content at that path before any worker
produces a record), leaves every other path untouched, and returns
exactly `numWorkers` streams, all freshly empty and open, of which only
stream 0 is backed by the output path. -/
theorem claim10_open_truncates {α : Type} (fs : String → List α) (path p : String)
    (n i : Nat) (h : 1 ≤ n) (hi : 1 ≤ i) (hp : p ≠ path) :
    (open_writer_list fs path n).1 path = [] ∧
    (open_writer_list fs path n).1 p = fs p ∧
    (open_writer_list fs path n).2.length = n ∧
    ((open_writer_list fs path n).2.getD 0 ⟨none, [], false⟩).backing = some path ∧
    ((open_writer_list fs path n).2.getD i ⟨none, [], false⟩).backing = none ∧
    (∀ s ∈ (open_writer_list fs path n).2, s.content = [] ∧ s.closed = false) := by
  refine ⟨by simp [open_writer_list], by simp [open_writer_list, hp], ?_, rfl, ?_, ?_⟩
  · by_cases hn : n > 1 <;> simp [open_writer_list, hn] <;> omega
  · obtain ⟨j, rfl⟩ : ∃ j, i = j + 1 := ⟨i - 1, by omega⟩
    have hstep : ∀ (a : WStream α) (l : List (WStream α)) (d : WStream α) (m : Nat),
        (a :: l).getD (m + 1) d = l.getD m d := by
      intro a l d m
      simp [List.getD]
    show (((⟨some path, [], false⟩ :: (if n > 1 then
        (List.range (n - 1)).map (fun _ => (⟨none, [], false⟩ : WStream α))
      else [])) : List (WStream α)).getD (j + 1) ⟨none, [], false⟩).backing = none
    rw [hstep]
    by_cases hn : n > 1
    · rw [if_pos hn]
      exact getD_backing_none (n - 1) j
    · rw [if_neg hn]
      rfl
  · intro s hs
    rcases List.mem_cons.mp hs with hh | ht
    · rw [hh]
      exact ⟨rfl, rfl⟩
    · by_cases hn : n > 1
      · rw [if_pos hn] at ht
        obtain ⟨_, _, rfl⟩ := List.mem_map.mp ht
        exact ⟨rfl, rfl⟩
      · rw [if_neg hn] at ht
        cases ht

/-- Witness for claim C10 on a file system holding prior content at the
output path. -/
theorem claim10_witness :
    (1 ≤ 2 ∧ (1 : Nat) ≤ 1 ∧ "zzz" ≠ "out") ∧
    ((open_writer_list (fun _ => [7]) "out" 2).1 "out" = [] ∧
    (open_writer_list (fun _ => [(7 : Nat)]) "out" 2).1 "zzz" = (fun _ => [7]) "zzz" ∧
    (open_writer_list (fun _ => [(7 : Nat)]) "out" 2).2.length = 2 ∧
    ((open_writer_list (fun _ => [(7 : Nat)]) "out" 2).2.getD 0 ⟨none, [], false⟩).backing =
      some "out" ∧
    ((open_writer_list (fun _ => [(7 : Nat)]) "out" 2).2.getD 1 ⟨none, [], false⟩).backing =
      none ∧
    (∀ s ∈ (open_writer_list (fun _ => [(7 : Nat)]) "out" 2).2,
      s.content = [] ∧ s.closed = false)) :=
  ⟨⟨by decide, by decide, by decide⟩,
    claim10_open_truncates (fun _ => [7]) "out" "zzz" 2 1
      (by decide) (by decide) (by decide)⟩

/-! ### The line decoder (claims C4 and C5) -/

theorem pyRstrip_eq_nil_iff (l : List Nat) :
    pyRstrip l = [] ↔ ∀ x ∈ l, isSpaceByte x := by
  unfold pyRstrip
  rw [List.reverse_eq_nil_iff, List.dropWhile_eq_nil_iff]
  constructor
  · intro h x hx
    exact h x (List.mem_reverse.mpr hx)
  · intro h x hx
    exact h x (List.mem_reverse.mp hx)

theorem pyStrip_eq_nil_iff (l : List Nat) :
    pyStrip l = [] ↔ ∀ x ∈ l, isSpaceByte x := by
  unfold pyStrip
  rw [pyRstrip_eq_nil_iff]
  have hsplit := List.takeWhile_append_dropWhile (p := isSpaceByte) (l := l)
  constructor
  · intro h x hx
    rw [← hsplit] at hx
    rcases List.mem_append.mp hx with ht | hd
    · exact List.mem_takeWhile_imp ht
    · exact h x hd
  · intro h x hx
    exact h x (hsplit ▸ List.mem_append_right _ hx)

/-- Claim C4: the decoder yields a sentinel exactly when the raw line
is empty or whitespace-only, does not split into exactly two fields on
`' ||| '`, has a field that is empty after trimming, or has a side
whose framed subword sequence truncates to just the two framing
markers; and no malformed line stops the run — the worker still yields
exactly one item per consumed line. -/
theorem claim4_sentinel_iff {τ : Type} (tok : Tokenizer τ) (workerId : Nat)
    (line file : List Nat) (offsets : Option (List Nat)) :
    (process_line tok workerId line = none ↔
      line.length = 0 ∨ pyIsspace line = true ∨ (pySplit line).length ≠ 2 ∨
      pyStrip (srcField line) = [] ∨ pyStrip (tgtField line) = [] ∨
      (prepare_for_model tok (subwordIds tok (srcField line))).length = 2 ∨
      (prepare_for_model tok (subwordIds tok (tgtField line))).length = 2) ∧
    (iterWorker tok file offsets workerId).length =
      (workerRead file (boundsFor offsets workerId).1
        (boundsFor offsets workerId).2).length := by
  constructor
  · have hsrc : pyRstrip (srcField line) = [] ↔ pyStrip (srcField line) = [] := by
      rw [pyRstrip_eq_nil_iff, pyStrip_eq_nil_iff]
    have htgt : pyRstrip (tgtField line) = [] ↔ pyStrip (tgtField line) = [] := by
      rw [pyRstrip_eq_nil_iff, pyStrip_eq_nil_iff]
    by_cases h1 : line.length = 0 ∨ pyIsspace line = true ∨ (pySplit line).length ≠ 2
    · rw [process_line, if_pos h1]
      exact iff_of_true rfl (by tauto)
    · rw [process_line, if_neg h1]
      by_cases h2 : pyRstrip (srcField line) = [] ∨ pyRstrip (tgtField line) = []
      · rw [if_pos h2]
        refine iff_of_true rfl ?_
        rcases h2 with h | h
        · exact Or.inr (Or.inr (Or.inr (Or.inl (hsrc.mp h))))
        · exact Or.inr (Or.inr (Or.inr (Or.inr (Or.inl (htgt.mp h)))))
      · rw [if_neg h2]
        by_cases h3 : (prepare_for_model tok (subwordIds tok (srcField line))).length = 2 ∨
            (prepare_for_model tok (subwordIds tok (tgtField line))).length = 2
        · rw [if_pos h3]
          exact iff_of_true rfl (by tauto)
        · rw [if_neg h3]
          refine iff_of_false (by simp) ?_
          push_neg at h1 h2 h3 ⊢
          exact ⟨h1.1, h1.2.1, h1.2.2, fun hd => h2.1 (hsrc.mpr hd),
            fun hd => h2.2 (htgt.mpr hd), h3.1, h3.2⟩
  · simp [iterWorker]

theorem bpeMapAux_length {τ : Type} (tokens : List (List τ)) (k : Nat) :
    (bpeMapAux k tokens).length = tokens.flatten.length := by
  induction tokens generalizing k with
  | nil => rfl
  | cons ts rest ih => simp [bpeMapAux, ih]

theorem bpeMapAux_lower {τ : Type} (tokens : List (List τ)) (k : Nat) :
    ∀ x ∈ bpeMapAux k tokens, (k : Int) ≤ x := by
  induction tokens generalizing k with
  | nil => intro x hx; cases hx
  | cons ts rest ih =>
    intro x hx
    simp only [bpeMapAux] at hx
    rcases List.mem_append.mp hx with h | h
    · obtain ⟨w, hw, rfl⟩ := List.mem_map.mp h
      exact le_refl _
    · have h1 := ih (k + 1) x h
      have h2 : ((k : Int)) ≤ ((k + 1 : Nat) : Int) := by exact_mod_cast Nat.le_succ k
      exact le_trans h2 h1

theorem sorted_replicate_int (n : Nat) (c : Int) :
    List.Sorted (· ≤ ·) (List.replicate n c) := by
  induction n with
  | zero => exact List.sorted_nil
  | succ m ih =>
    rw [List.replicate_succ, List.sorted_cons]
    exact ⟨fun b hb => le_of_eq (List.eq_of_mem_replicate hb).symm, ih⟩

theorem bpeMapAux_sorted {τ : Type} (tokens : List (List τ)) (k : Nat) :
    List.Sorted (· ≤ ·) (bpeMapAux k tokens) := by
  induction tokens generalizing k with
  | nil => exact List.sorted_nil
  | cons ts rest ih =>
    simp only [bpeMapAux]
    refine List.pairwise_append.mpr ⟨?_, ih (k + 1), ?_⟩
    · rw [List.map_const']
      exact sorted_replicate_int ts.length (k : Int)
    · intro a ha b hb
      obtain ⟨w, hw, rfl⟩ := List.mem_map.mp ha
      have h1 := bpeMapAux_lower rest (k + 1) b hb
      have h2 : ((k : Int)) ≤ ((k + 1 : Nat) : Int) := by exact_mod_cast Nat.le_succ k
      exact le_trans h2 h1

theorem bpeMapAux_count {τ : Type} (tokens : List (List τ)) (k i : Nat) :
    (bpeMapAux k tokens).count ((i + k : Nat) : Int) = (tokens.getD i []).length := by
  induction tokens generalizing k i with
  | nil => simp [bpeMapAux, List.getD]
  | cons ts rest ih =>
    simp only [bpeMapAux, List.count_append]
    cases i with
    | zero =>
      have h1 : (ts.map (fun _ => (k : Int))).count ((0 + k : Nat) : Int) = ts.length := by
        rw [List.map_const', List.count_replicate]
        simp
      have h2 : (bpeMapAux (k + 1) rest).count ((0 + k : Nat) : Int) = 0 := by
        rw [List.count_eq_zero]
        intro hmem
        have hle := bpeMapAux_lower rest (k + 1) _ hmem
        push_cast at hle
        omega
      rw [h1, h2]
      simp [List.getD]
    | succ j =>
      have h1 : (ts.map (fun _ => (k : Int))).count ((j + 1 + k : Nat) : Int) = 0 := by
        rw [List.map_const', List.count_replicate, if_neg]
        intro he
        rw [beq_iff_eq] at he
        have hjk : (j + 1 + k : Nat) = k := by exact_mod_cast he.symm
        omega
      have h2 := ih (k + 1) j
      have he : j + (k + 1) = j + 1 + k := by omega
      rw [he] at h2
      rw [h1, h2]
      simp [List.getD]

theorem subwordIds_length {τ : Type} (tok : Tokenizer τ) (f : List Nat) :
    (subwordIds tok f).length = (tokensOf tok f).flatten.length := by
  unfold subwordIds
  rw [List.length_flatten, List.length_flatten, List.map_map]
  congr 1
  apply List.map_congr_left
  intro ts hts
  simp

theorem process_line_some {τ : Type} {tok : Tokenizer τ} {workerId : Nat}
    {line : List Nat} {it : Item} (h : process_line tok workerId line = some it) :
    it.bpeSrc = bpeMap (tokensOf tok (srcField line)) ∧
    it.bpeTgt = bpeMap (tokensOf tok (tgtField line)) := by
  unfold process_line at h
  split at h
  · cases h
  · split at h
    · cases h
    · split at h
      · cases h
      · have he := Option.some.inj h
        subst he
        exact ⟨rfl, rfl⟩

/-- Claim C5: for every well-formed line and each side, the
word2subword index map repeats each word's position once per subword
that word tokenized into (its count at word `i` is the size of word
`i`'s token list), in word order (the map is monotone), and its length
equals the length of that side's concatenated subword-id sequence. -/
theorem claim5_word2subword_invariant {τ : Type} (tok : Tokenizer τ)
    (workerId i : Nat) (line : List Nat) (it : Item)
    (h : process_line tok workerId line = some it) :
    it.bpeSrc.length = (subwordIds tok (srcField line)).length ∧
    it.bpeTgt.length = (subwordIds tok (tgtField line)).length ∧
    List.Sorted (· ≤ ·) it.bpeSrc ∧
    List.Sorted (· ≤ ·) it.bpeTgt ∧
    it.bpeSrc.count (i : Int) = ((tokensOf tok (srcField line)).getD i []).length ∧
    it.bpeTgt.count (i : Int) = ((tokensOf tok (tgtField line)).getD i []).length := by
  obtain ⟨h1, h2⟩ := process_line_some h
  rw [h1, h2, subwordIds_length, subwordIds_length]
  refine ⟨bpeMapAux_length _ 0, bpeMapAux_length _ 0,
    bpeMapAux_sorted _ 0, bpeMapAux_sorted _ 0, ?_, ?_⟩
  · simpa using bpeMapAux_count (tokensOf tok (srcField line)) 0 i
  · simpa using bpeMapAux_count (tokensOf tok (tgtField line)) 0 i

/-- Witness for claim C5 on the well-formed line `"ab ||| cd\n"` with
the byte-level tokenizer. -/
theorem claim5_witness :
    process_line tok0 0 line0 = some item0 ∧
    (item0.bpeSrc.length = (subwordIds tok0 (srcField line0)).length ∧
    item0.bpeTgt.length = (subwordIds tok0 (tgtField line0)).length ∧
    List.Sorted (· ≤ ·) item0.bpeSrc ∧
    List.Sorted (· ≤ ·) item0.bpeTgt ∧
    item0.bpeSrc.count ((0 : Nat) : Int) =
      ((tokensOf tok0 (srcField line0)).getD 0 []).length ∧
    item0.bpeTgt.count ((0 : Nat) : Int) =
      ((tokensOf tok0 (tgtField line0)).getD 0 []).length) :=
  ⟨by decide, claim5_word2subword_invariant tok0 0 0 line0 item0 (by decide)⟩

end RunAlign
